import Mathlib

/-!
A shallow embedding of the checkers rules engine in `src/script.js`.

Coordinates are `Int` (JavaScript numbers used as array indices; out-of-range
indices are rejected by `within` before any access, mirroring the short-circuit
`within(nr,nc) && !state.board[nr][nc].piece` pattern of the source).

The board is modelled as a total function `Int → Int → Option Piece`; each cell
holds at most one piece by construction, exactly as each JS cell object has a
single `piece` slot.  The global mutable `state` of the source becomes an
explicit `GameState` value threaded through the transition functions.
-/

namespace Checkers

/-- Piece colors, `RED`/`BLACK` of the source. -/
inductive Color where
  | red
  | black
deriving DecidableEq, Repr

/-- A piece: `{ color, king }` of the source. -/
structure Piece where
  color : Color
  king : Bool
deriving DecidableEq, Repr

/-- A capture entry `[tr, tc, mr, mc]` as pushed by `captureMoves`. -/
structure Cap where
  tr : Int
  tc : Int
  mr : Int
  mc : Int
deriving DecidableEq, Repr

/-- The board: for each coordinate pair, the optional piece in that cell. -/
abbrev Board := Int → Int → Option Piece

/-- `within(r,c)`: both coordinates in `[0, SIZE)` with `SIZE = 8`. -/
def within (r c : Int) : Prop :=
  0 ≤ r ∧ r < 8 ∧ 0 ≤ c ∧ c < 8

instance (r c : Int) : Decidable (within r c) :=
  inferInstanceAs (Decidable (0 ≤ r ∧ r < 8 ∧ 0 ≤ c ∧ c < 8))

/-- Write one cell of the board (`b[r][c].piece = v`). -/
def setPiece (b : Board) (r c : Int) (v : Option Piece) : Board :=
  fun r' c' => if r' = r ∧ c' = c then v else b r' c'

/-- `makeEmptyBoard()`: every cell empty. -/
def makeEmptyBoard : Board := fun _ _ => none

/-- `setupPieces(b)`: on every in-range dark cell (`(r+c) % 2 === 1`), rows 0–2
get a non-king Black piece and rows 5–7 a non-king Red piece; all other cells
keep their previous content. -/
def setupPieces (b : Board) : Board := fun r c =>
  if within r c ∧ (r + c) % 2 = 1 then
    if r ≤ 2 then some ⟨Color.black, false⟩
    else if 5 ≤ r then some ⟨Color.red, false⟩
    else b r c
  else b r c

/-- The board produced by `resetGame`: `makeEmptyBoard()` then `setupPieces`. -/
def initialBoard : Board := setupPieces makeEmptyBoard

/-- `forwardDirs(color)`: Red moves toward decreasing rows, Black toward
increasing rows. -/
def forwardDirs (color : Color) : List (Int × Int) :=
  if color = Color.red then [(-1, -1), (-1, 1)] else [(1, -1), (1, 1)]

/-- The direction list of lines 59/66 of the source: all four diagonals for a
king, `forwardDirs` otherwise. -/
def dirsOf (p : Piece) : List (Int × Int) :=
  if p.king then [(-1, -1), (-1, 1), (1, -1), (1, 1)] else forwardDirs p.color

/-- Per-direction body of the `legalSteps` loop. -/
def stepCheck (b : Board) (r c : Int) (d : Int × Int) : Option (Int × Int) :=
  if within (r + d.1) (c + d.2) ∧ b (r + d.1) (c + d.2) = none then
    some (r + d.1, c + d.2)
  else none

/-- `legalSteps(r,c)`. -/
def legalSteps (b : Board) (r c : Int) : List (Int × Int) :=
  match b r c with
  | none => []
  | some p => (dirsOf p).filterMap (stepCheck b r c)

/-- Per-direction body of the `captureMoves` loop: the `continue` on the bounds
check, then the middle-holds-an-opponent and landing-empty test
(`middle?.piece && middle.piece.color !== sq.piece.color && !board[tr][tc].piece`). -/
def capCheck (b : Board) (p : Piece) (r c : Int) (d : Int × Int) : Option Cap :=
  if ¬(within (r + 2 * d.1) (c + 2 * d.2) ∧ within (r + d.1) (c + d.2)) then none
  else if (b (r + d.1) (c + d.2)).any (fun m => decide (m.color ≠ p.color)) = true ∧
          b (r + 2 * d.1) (c + 2 * d.2) = none then
    some ⟨r + 2 * d.1, c + 2 * d.2, r + d.1, c + d.2⟩
  else none

/-- `captureMoves(r,c)`. -/
def captureMoves (b : Board) (r c : Int) : List Cap :=
  match b r c with
  | none => []
  | some p => (dirsOf p).filterMap (capCheck b p r c)

/-- `anyCaptureAvailable(color)`: scans all 64 cells. -/
def anyCaptureAvailable (b : Board) (color : Color) : Bool :=
  (List.range 8).any fun r =>
    (List.range 8).any fun c =>
      match b (Int.ofNat r) (Int.ofNat c) with
      | some p =>
          decide (p.color = color) && !(captureMoves b (Int.ofNat r) (Int.ofNat c)).isEmpty
      | none => false

/-- `maybeKinging(r, piece)`. -/
def maybeKinging (adv : Bool) (r : Int) (p : Piece) : Piece :=
  if !adv || p.king then p
  else if p.color = Color.red ∧ r = 0 then { p with king := true }
  else if p.color = Color.black ∧ r = 7 then { p with king := true }
  else p

/-- `movePiece(from, to)`: read the moving piece, clear the origin, place the
(possibly promoted) piece at the target. -/
def movePiece (adv : Bool) (b : Board) (src dst : Int × Int) : Board :=
  let moving := b src.1 src.2
  setPiece (setPiece b src.1 src.2 none) dst.1 dst.2
    (moving.map (maybeKinging adv dst.1))

/-- `removePiece(r,c)`. -/
def removePiece (b : Board) (r c : Int) : Board := setPiece b r c none

/-- The score tally `state.score`. -/
structure Score where
  red : Nat
  black : Nat
deriving DecidableEq, Repr

/-- The game-relevant fields of the global `state` object. -/
structure GameState where
  board : Board
  selected : Option (Int × Int)
  turn : Color
  advanced : Bool
  chainFrom : Option (Int × Int)
  score : Score

/-- Result shape of `computeTargetsForSelection`. -/
structure Targets where
  steps : List (Int × Int)
  caps : List Cap
deriving DecidableEq, Repr

/-- `computeTargetsForSelection(sr,sc)`. -/
def computeTargetsForSelection (st : GameState) (sr sc : Int) : Targets :=
  match st.board sr sc with
  | none => ⟨[], []⟩
  | some _ =>
      let mustCapture :=
        st.advanced && st.chainFrom.isNone && anyCaptureAvailable st.board st.turn
      let caps := captureMoves st.board sr sc
      if st.advanced && (st.chainFrom.isSome || mustCapture) then ⟨[], caps⟩
      else ⟨legalSteps st.board sr sc, caps⟩

/-- `state.turn===RED ? BLACK : RED`. -/
def otherColor : Color → Color
  | Color.red => Color.black
  | Color.black => Color.red

/-- `endTurn()`: clear selection and chain, flip the turn. -/
def endTurn (st : GameState) : GameState :=
  { st with selected := none, chainFrom := none, turn := otherColor st.turn }

/-- `resetGame()`: fresh initial board, clear selection/chain, Red to move,
scores zeroed.  The mode flag `advanced` is not touched by the source. -/
def resetGame (st : GameState) : GameState :=
  { st with board := initialBoard, selected := none, chainFrom := none,
            turn := Color.red, score := ⟨0, 0⟩ }

/-- The observable outcome of one `onSquareClick` call (which log/announce
branch was taken). -/
inductive Event where
  | noop
  | mustContinue
  | pieceSelected
  | forcedCapture
  | stepMoved
  | captureContinue
  | captureEnd
  | illegalMove
deriving DecidableEq, Repr

/-- Lines 187–188 of the source: an accepted step relocates the piece and ends
the turn. -/
def applyStep (st : GameState) (sr sc r c : Int) : GameState × Event :=
  (endTurn { st with board := movePiece st.advanced st.board (sr, sc) (r, c) },
   Event.stepMoved)

/-- Lines 192–203 of the source: an accepted capture.  The sequence of
mutations (`movePiece`, `removePiece` of the middle, score bump, selection and
chain origin moved to the landing cell) is written as one record update; then
further captures from the landing cell decide whether the chain continues
(advanced mode) or the turn ends. -/
def applyCapture (st : GameState) (sr sc : Int) (q : Cap) : GameState × Event :=
  if st.advanced &&
      !(captureMoves (removePiece (movePiece st.advanced st.board (sr, sc) (q.tr, q.tc)) q.mr q.mc)
          q.tr q.tc).isEmpty then
    ({ st with
        board := removePiece (movePiece st.advanced st.board (sr, sc) (q.tr, q.tc)) q.mr q.mc,
        score := if st.turn = Color.red then { st.score with red := st.score.red + 1 }
                 else { st.score with black := st.score.black + 1 },
        selected := some (q.tr, q.tc), chainFrom := some (q.tr, q.tc) },
     Event.captureContinue)
  else
    (endTurn
      { st with
          board := removePiece (movePiece st.advanced st.board (sr, sc) (q.tr, q.tc)) q.mr q.mc,
          score := if st.turn = Color.red then { st.score with red := st.score.red + 1 }
                   else { st.score with black := st.score.black + 1 },
          selected := some (q.tr, q.tc), chainFrom := some (q.tr, q.tc) },
     Event.captureEnd)

/-- The move branch of `onSquareClick` (lines 177–207): the clicked cell is
empty and a selection exists. -/
def tryMove (st : GameState) (sr sc r c : Int) : GameState × Event :=
  let t := computeTargetsForSelection st sr sc
  if (r, c) ∈ t.steps then
    if st.advanced && (st.chainFrom.isSome || anyCaptureAvailable st.board st.turn) then
      (st, Event.forcedCapture)
    else applyStep st sr sc r c
  else
    match t.caps.find? (fun q => decide (q.tr = r) && decide (q.tc = c)) with
    | some q => applyCapture st sr sc q
    | none => (st, Event.illegalMove)

/-- `onSquareClick` on a click at `(r,c)`: the selection branch (clicked cell
holds a piece of the turn's color), otherwise the move branch when a selection
exists and the clicked cell is empty. -/
def onSquareClick (st : GameState) (r c : Int) : GameState × Event :=
  match st.board r c with
  | some p =>
      if p.color = st.turn then
        match st.chainFrom with
        | some cf =>
            if cf.1 ≠ r ∨ cf.2 ≠ c then (st, Event.mustContinue)
            else ({ st with selected := some (r, c) }, Event.pieceSelected)
        | none => ({ st with selected := some (r, c) }, Event.pieceSelected)
      else (st, Event.noop)
  | none =>
      match st.selected with
      | none => (st, Event.noop)
      | some s => tryMove st s.1 s.2 r c

/-- `countPieces(color)`: nested loop over all 64 cells. -/
def countPieces (b : Board) (color : Color) : Nat :=
  (List.range 8).foldl
    (fun n r =>
      (List.range 8).foldl
        (fun m c =>
          match b (Int.ofNat r) (Int.ofNat c) with
          | some p => if p.color = color then m + 1 else m
          | none => m)
        n)
    0

/-- A concrete board from an association list of placed pieces (test helper). -/
def boardOf (l : List ((Int × Int) × Piece)) : Board := fun r c =>
  (l.find? (fun e => decide (e.1.1 = r) && decide (e.1.2 = c))).map (fun e => e.2)

/-- The canonical direction order named by the spec: up-left, up-right,
down-left, down-right (up = decreasing row). -/
def canonicalDirs : List (Int × Int) := [(-1, -1), (-1, 1), (1, -1), (1, 1)]

/-- Modelled from the spec: a direction is allowed for a piece iff the piece is
a king, or it is one of the two forward directions of the piece's color. -/
def allowedDir (p : Piece) (d : Int × Int) : Prop :=
  p.king = true ∨ (p.color = Color.red ∧ d.1 = -1) ∨ (p.color = Color.black ∧ d.1 = 1)

instance (p : Piece) (d : Int × Int) : Decidable (allowedDir p d) :=
  inferInstanceAs (Decidable (_ ∨ _))

/-- Modelled from the spec: the capture entry offered in direction `d`, present
iff middle and landing are in bounds, the middle holds an opposite-color piece,
and the landing is empty. -/
def capEntrySpec (b : Board) (p : Piece) (r c : Int) (d : Int × Int) : Option Cap :=
  if within (r + d.1) (c + d.2) ∧ within (r + 2 * d.1) (c + 2 * d.2) ∧
     (b (r + d.1) (c + d.2)).any (fun m => decide (m.color ≠ p.color)) = true ∧
     b (r + 2 * d.1) (c + 2 * d.2) = none then
    some ⟨r + 2 * d.1, c + 2 * d.2, r + d.1, c + d.2⟩
  else none

/-- Board states reachable from the initial placement by accepted steps,
accepted captures, and piece removals (the three board mutations of the
source: `movePiece` on a `legalSteps` target, `movePiece` plus `removePiece`
on a `captureMoves` entry, and `removePiece` alone). -/
inductive Reach : Board → Prop where
  | init : Reach initialBoard
  | step (b : Board) (adv : Bool) (r c nr nc : Int) :
      Reach b → (nr, nc) ∈ legalSteps b r c →
      Reach (movePiece adv b (r, c) (nr, nc))
  | cap (b : Board) (adv : Bool) (r c : Int) (q : Cap) :
      Reach b → q ∈ captureMoves b r c →
      Reach (removePiece (movePiece adv b (r, c) (q.tr, q.tc)) q.mr q.mc)
  | rem (b : Board) (r c : Int) :
      Reach b → Reach (removePiece b r c)

/-! ## Basic lemmas about the board primitives -/

theorem setPiece_same (b : Board) (r c : Int) (v : Option Piece) :
    setPiece b r c v r c = v := by
  simp [setPiece]

theorem setPiece_other (b : Board) (r c : Int) (v : Option Piece) (r' c' : Int)
    (h : ¬(r' = r ∧ c' = c)) : setPiece b r c v r' c' = b r' c' := by
  simp [setPiece, h]

theorem dirsOf_d1 (p : Piece) (d : Int × Int) (hd : d ∈ dirsOf p) :
    (d.1 = -1 ∨ d.1 = 1) ∧ (d.2 = -1 ∨ d.2 = 1) := by
  unfold dirsOf forwardDirs at hd
  split at hd
  · simp only [List.mem_cons, List.mem_singleton, List.not_mem_nil, or_false] at hd
    rcases hd with h | h | h | h <;> subst h <;> simp
  · split at hd <;>
    · simp only [List.mem_cons, List.mem_singleton, List.not_mem_nil, or_false] at hd
      rcases hd with h | h <;> subst h <;> simp

theorem stepCheck_eq_some_iff (b : Board) (r c : Int) (d : Int × Int) (nr nc : Int) :
    stepCheck b r c d = some (nr, nc) ↔
      nr = r + d.1 ∧ nc = c + d.2 ∧ within nr nc ∧ b nr nc = none := by
  unfold stepCheck
  split
  · rename_i h
    constructor
    · intro hs
      rcases Option.some.injEq _ _ ▸ hs with hs'
      have h1 : nr = r + d.1 := by
        have := congrArg Prod.fst (Option.some_injective _ hs).symm
        simpa using this
      have h2 : nc = c + d.2 := by
        have := congrArg Prod.snd (Option.some_injective _ hs).symm
        simpa using this
      subst h1; subst h2
      exact ⟨rfl, rfl, h.1, h.2⟩
    · rintro ⟨h1, h2, _, _⟩
      subst h1; subst h2; rfl
  · rename_i h
    constructor
    · intro hs; cases hs
    · rintro ⟨h1, h2, hw, hn⟩
      subst h1; subst h2
      exact absurd ⟨hw, hn⟩ h

theorem mem_legalSteps (b : Board) (r c nr nc : Int) :
    (nr, nc) ∈ legalSteps b r c ↔
      ∃ p, b r c = some p ∧ ∃ d ∈ dirsOf p,
        nr = r + d.1 ∧ nc = c + d.2 ∧ within nr nc ∧ b nr nc = none := by
  unfold legalSteps
  rcases hb : b r c with _ | p
  · simp
  · simp only [List.mem_filterMap, Option.some.injEq]
    constructor
    · rintro ⟨d, hd, hs⟩
      exact ⟨p, rfl, d, hd, (stepCheck_eq_some_iff b r c d nr nc).mp hs⟩
    · rintro ⟨p', hp', d, hd, hrest⟩
      rcases hp' with rfl
      exact ⟨d, hd, (stepCheck_eq_some_iff b r c d nr nc).mpr hrest⟩

theorem option_any_eq_true (o : Option Piece) (f : Piece → Bool) :
    o.any f = true ↔ ∃ m, o = some m ∧ f m = true := by
  rcases o with _ | m <;> simp [Option.any]

theorem capCheck_eq_some_iff (b : Board) (p : Piece) (r c : Int) (d : Int × Int) (q : Cap) :
    capCheck b p r c d = some q ↔
      within (r + 2 * d.1) (c + 2 * d.2) ∧ within (r + d.1) (c + d.2) ∧
      (∃ m, b (r + d.1) (c + d.2) = some m ∧ m.color ≠ p.color) ∧
      b (r + 2 * d.1) (c + 2 * d.2) = none ∧
      q = ⟨r + 2 * d.1, c + 2 * d.2, r + d.1, c + d.2⟩ := by
  unfold capCheck
  split
  · rename_i h
    rw [not_and_or] at h
    constructor
    · intro hs; cases hs
    · rintro ⟨h1, h2, _⟩
      rcases h with h | h
      · exact absurd h1 h
      · exact absurd h2 h
  · rename_i h
    rw [not_not] at h
    split
    · rename_i hcond
      rcases (option_any_eq_true _ _).mp hcond.1 with ⟨m, hm, hne⟩
      constructor
      · intro hs
        cases hs
        exact ⟨h.1, h.2, ⟨m, hm, by simpa using hne⟩, hcond.2, rfl⟩
      · rintro ⟨_, _, _, _, rfl⟩; rfl
    · rename_i hcond
      rw [not_and_or] at hcond
      constructor
      · intro hs; cases hs
      · rintro ⟨_, _, ⟨m', hm', hne⟩, hland, _⟩
        rcases hcond with hc | hc
        · exact absurd ((option_any_eq_true _ _).mpr ⟨m', hm', by simpa using hne⟩) hc
        · exact absurd hland hc

theorem mem_captureMoves (b : Board) (r c : Int) (q : Cap) :
    q ∈ captureMoves b r c ↔
      ∃ p, b r c = some p ∧ ∃ d ∈ dirsOf p, capCheck b p r c d = some q := by
  unfold captureMoves
  rcases hb : b r c with _ | p
  · simp
  · simp only [List.mem_filterMap, Option.some.injEq]
    constructor
    · rintro ⟨d, hd, hs⟩
      exact ⟨p, rfl, d, hd, hs⟩
    · rintro ⟨p', hp', d, hd, hs⟩
      rcases hp' with rfl
      exact ⟨d, hd, hs⟩

/-- The shape of a capture entry: landing two diagonal steps from the origin,
the jumped middle strictly between, the landing empty and in bounds. -/
theorem captureMoves_shape (b : Board) (r c : Int) (q : Cap)
    (hq : q ∈ captureMoves b r c) :
    ∃ p d, b r c = some p ∧ d ∈ dirsOf p ∧
      q.tr = r + 2 * d.1 ∧ q.tc = c + 2 * d.2 ∧ q.mr = r + d.1 ∧ q.mc = c + d.2 ∧
      within q.tr q.tc ∧ within q.mr q.mc ∧
      (∃ m, b q.mr q.mc = some m ∧ m.color ≠ p.color) ∧ b q.tr q.tc = none := by
  rcases (mem_captureMoves b r c q).mp hq with ⟨p, hp, d, hd, hcap⟩
  rcases (capCheck_eq_some_iff b p r c d q).mp hcap with ⟨h1, h2, h3, h4, rfl⟩
  exact ⟨p, d, hp, hd, rfl, rfl, rfl, rfl, h1, h2, h3, h4⟩

/-! ## Lemmas about the target evaluator -/

theorem computeTargets_caps_eq (st : GameState) (sr sc : Int) :
    (computeTargetsForSelection st sr sc).caps = captureMoves st.board sr sc := by
  rcases hb : st.board sr sc with _ | p
  · simp [computeTargetsForSelection, captureMoves, hb]
  · simp only [computeTargetsForSelection, hb]
    split <;> rfl

theorem computeTargets_steps_subset (st : GameState) (sr sc : Int) (x : Int × Int)
    (h : x ∈ (computeTargetsForSelection st sr sc).steps) :
    x ∈ legalSteps st.board sr sc := by
  rcases hb : st.board sr sc with _ | p
  · simp only [computeTargetsForSelection, hb] at h
    simp at h
  · simp only [computeTargetsForSelection, hb] at h
    split at h
    · simp at h
    · simpa using h

/-- Under forced capture (advanced mode, chain in progress or any capture
available for the turn's color), steps are suppressed and exactly the cell's
own captures are offered. -/
theorem computeTargets_forced (st : GameState) (sr sc : Int)
    (hadv : st.advanced = true)
    (hforce : st.chainFrom.isSome = true ∨ anyCaptureAvailable st.board st.turn = true) :
    computeTargetsForSelection st sr sc = ⟨[], captureMoves st.board sr sc⟩ := by
  unfold computeTargetsForSelection
  rcases hb : st.board sr sc with _ | p
  · have hc : captureMoves st.board sr sc = [] := by
      unfold captureMoves
      rw [hb]
    simp [hc]
  · have hcond : (st.advanced && (st.chainFrom.isSome ||
        (st.advanced && st.chainFrom.isNone && anyCaptureAvailable st.board st.turn))) = true := by
      rcases hforce with h | h
      · simp [hadv, h]
      · rcases hcf : st.chainFrom with _ | cf <;> simp [hadv, h, hcf]
    simp only [hcond, if_true]

theorem computeTargets_unforced (st : GameState) (sr sc : Int) (p : Piece)
    (hb : st.board sr sc = some p)
    (hnot : ¬(st.advanced = true ∧
      (st.chainFrom.isSome = true ∨ anyCaptureAvailable st.board st.turn = true))) :
    computeTargetsForSelection st sr sc =
      ⟨legalSteps st.board sr sc, captureMoves st.board sr sc⟩ := by
  unfold computeTargetsForSelection
  rw [hb]
  cases ha : st.advanced with
  | false => simp [ha]
  | true =>
    have hni : st.chainFrom.isSome = false := by
      cases hcf : st.chainFrom.isSome
      · rfl
      · exact absurd ⟨ha, Or.inl hcf⟩ hnot
    have hna : anyCaptureAvailable st.board st.turn = false := by
      cases hx : anyCaptureAvailable st.board st.turn
      · rfl
      · exact absurd ⟨ha, Or.inr hx⟩ hnot
    simp [ha, hni, hna]

/-! ## Finding the clicked capture entry -/

theorem find_eq_some_of_unique {α : Type} (p : α → Bool) (l : List α) (a : α)
    (ha : a ∈ l) (hpa : p a = true) (huniq : ∀ x ∈ l, p x = true → x = a) :
    l.find? p = some a := by
  induction l with
  | nil => cases ha
  | cons b t ih =>
    cases hpb : p b
    · rw [List.find?_cons_of_neg _ (by simp [hpb])]
      rcases List.mem_cons.mp ha with rfl | hat
      · rw [hpa] at hpb; cases hpb
      · exact ih hat (fun x hx hpx => huniq x (List.mem_cons_of_mem _ hx) hpx)
    · rw [List.find?_cons_of_pos _ hpb]
      exact congrArg some (huniq b (List.mem_cons_self b t) hpb)

theorem captureMoves_landing_unique (b : Board) (r c : Int) (q q' : Cap)
    (hq : q ∈ captureMoves b r c) (hq' : q' ∈ captureMoves b r c)
    (ht : q.tr = q'.tr) (htc : q.tc = q'.tc) : q = q' := by
  rcases captureMoves_shape b r c q hq with ⟨p, d, _, _, e1, e2, e3, e4, _⟩
  rcases captureMoves_shape b r c q' hq' with ⟨p', d', _, _, f1, f2, f3, f4, _⟩
  obtain ⟨tr, tc, mr, mc⟩ := q
  obtain ⟨tr', tc', mr', mc'⟩ := q'
  simp only at e1 e2 e3 e4 f1 f2 f3 f4 ht htc
  simp only [Cap.mk.injEq]
  omega

theorem captureMoves_find (b : Board) (r c : Int) (q : Cap)
    (hq : q ∈ captureMoves b r c) :
    (captureMoves b r c).find? (fun x => decide (x.tr = q.tr) && decide (x.tc = q.tc)) =
      some q := by
  apply find_eq_some_of_unique _ _ _ hq (by simp)
  intro x hx hpx
  simp only [Bool.and_eq_true, decide_eq_true_eq] at hpx
  exact captureMoves_landing_unique b r c x q hx hq hpx.1 hpx.2

/-! ## Row displacement facts (steps land one row away, captures two) -/

theorem legalSteps_row (b : Board) (r c nr nc : Int)
    (h : (nr, nc) ∈ legalSteps b r c) : nr = r - 1 ∨ nr = r + 1 := by
  rcases (mem_legalSteps b r c nr nc).mp h with ⟨p, _, d, hd, h1, _, _, _⟩
  rcases (dirsOf_d1 p d hd).1 with h2 | h2 <;> omega

theorem captureMoves_rows (b : Board) (r c : Int) (q : Cap)
    (hq : q ∈ captureMoves b r c) :
    (q.tr = r - 2 ∨ q.tr = r + 2) ∧ (q.mr = r - 1 ∨ q.mr = r + 1) ∧
    (q.tc = c - 2 ∨ q.tc = c + 2) ∧ (q.mc = c - 1 ∨ q.mc = c + 1) := by
  rcases captureMoves_shape b r c q hq with ⟨p, d, _, hd, e1, e2, e3, e4, _⟩
  have h1 := dirsOf_d1 p d hd
  refine ⟨?_, ?_, ?_, ?_⟩ <;> rcases h1.1 with h | h <;> rcases h1.2 with h2 | h2 <;> omega

/-! ## Reduction lemmas for `onSquareClick` -/

theorem onSquareClick_move (st : GameState) (sr sc r c : Int)
    (hempty : st.board r c = none) (hsel : st.selected = some (sr, sc)) :
    onSquareClick st r c = tryMove st sr sc r c := by
  unfold onSquareClick
  rw [hempty, hsel]

/-- Under forced capture, clicking a cell that is a legal step target of the
selected piece falls through to the generic illegal-move rejection: the step
list is already empty and the landing cells of captures are two rows away. -/
theorem tryMove_forced_step (st : GameState) (sr sc r c : Int)
    (hadv : st.advanced = true)
    (hforce : st.chainFrom.isSome = true ∨ anyCaptureAvailable st.board st.turn = true)
    (hstep : (r, c) ∈ legalSteps st.board sr sc) :
    tryMove st sr sc r c = (st, Event.illegalMove) := by
  have hrow := legalSteps_row st.board sr sc r c hstep
  have hfind : (captureMoves st.board sr sc).find?
      (fun x => decide (x.tr = r) && decide (x.tc = c)) = none := by
    rw [List.find?_eq_none]
    intro x hx
    have hx2 := (captureMoves_rows st.board sr sc x hx).1
    simp only [Bool.and_eq_true, decide_eq_true_eq, not_and]
    intro h1 _
    omega
  unfold tryMove
  rw [computeTargets_forced st sr sc hadv hforce]
  simp only [List.not_mem_nil, if_false, hfind]

theorem tryMove_step (st : GameState) (sr sc r c : Int)
    (hnot : ¬(st.advanced = true ∧
      (st.chainFrom.isSome = true ∨ anyCaptureAvailable st.board st.turn = true)))
    (hstep : (r, c) ∈ legalSteps st.board sr sc) :
    tryMove st sr sc r c = applyStep st sr sc r c := by
  obtain ⟨p, hp, -⟩ := (mem_legalSteps st.board sr sc r c).mp hstep
  have hcond : (st.advanced && (st.chainFrom.isSome ||
      anyCaptureAvailable st.board st.turn)) = false := by
    cases ha : st.advanced with
    | false => simp
    | true =>
      have hni : st.chainFrom.isSome = false := by
        cases hcf : st.chainFrom.isSome
        · rfl
        · exact absurd ⟨ha, Or.inl hcf⟩ hnot
      have hna : anyCaptureAvailable st.board st.turn = false := by
        cases hx : anyCaptureAvailable st.board st.turn
        · rfl
        · exact absurd ⟨ha, Or.inr hx⟩ hnot
      simp [hni, hna]
  unfold tryMove
  rw [computeTargets_unforced st sr sc p hp hnot]
  simp [hstep, hcond]

theorem tryMove_capture (st : GameState) (sr sc : Int) (q : Cap)
    (hq : q ∈ captureMoves st.board sr sc) :
    tryMove st sr sc q.tr q.tc = applyCapture st sr sc q := by
  have hnostep : ¬((q.tr, q.tc) ∈ (computeTargetsForSelection st sr sc).steps) := by
    intro hmem
    have h1 := legalSteps_row st.board sr sc q.tr q.tc
      (computeTargets_steps_subset st sr sc _ hmem)
    have h2 := (captureMoves_rows st.board sr sc q hq).1
    omega
  unfold tryMove
  rw [if_neg hnostep, computeTargets_caps_eq st sr sc, captureMoves_find st.board sr sc q hq]

/-! ## Effects of an applied capture -/

theorem list_isEmpty_false_iff (l : List Cap) : l.isEmpty = false ↔ l ≠ [] := by
  cases l <;> simp

theorem applyCapture_board (st : GameState) (sr sc : Int) (q : Cap) :
    (applyCapture st sr sc q).1.board =
      removePiece (movePiece st.advanced st.board (sr, sc) (q.tr, q.tc)) q.mr q.mc := by
  unfold applyCapture
  split <;> rfl

theorem applyCapture_score (st : GameState) (sr sc : Int) (q : Cap) :
    (applyCapture st sr sc q).1.score =
      if st.turn = Color.red then { st.score with red := st.score.red + 1 }
      else { st.score with black := st.score.black + 1 } := by
  unfold applyCapture
  split <;> rfl

theorem applyCapture_continue (st : GameState) (sr sc : Int) (q : Cap)
    (hadv : st.advanced = true)
    (hmore : captureMoves
        (removePiece (movePiece st.advanced st.board (sr, sc) (q.tr, q.tc)) q.mr q.mc)
        q.tr q.tc ≠ []) :
    (applyCapture st sr sc q).1.turn = st.turn ∧
    (applyCapture st sr sc q).1.chainFrom = some (q.tr, q.tc) ∧
    (applyCapture st sr sc q).1.selected = some (q.tr, q.tc) ∧
    (applyCapture st sr sc q).2 = Event.captureContinue := by
  have hcond : (st.advanced &&
      !(captureMoves
          (removePiece (movePiece st.advanced st.board (sr, sc) (q.tr, q.tc)) q.mr q.mc)
          q.tr q.tc).isEmpty) = true := by
    rw [hadv] at hmore ⊢
    simp [list_isEmpty_false_iff, hmore]
  unfold applyCapture
  rw [if_pos hcond]
  exact ⟨rfl, rfl, rfl, rfl⟩

theorem applyCapture_end (st : GameState) (sr sc : Int) (q : Cap)
    (hnot : ¬(st.advanced = true ∧ captureMoves
        (removePiece (movePiece st.advanced st.board (sr, sc) (q.tr, q.tc)) q.mr q.mc)
        q.tr q.tc ≠ [])) :
    (applyCapture st sr sc q).1.turn = otherColor st.turn ∧
    (applyCapture st sr sc q).1.chainFrom = none ∧
    (applyCapture st sr sc q).2 = Event.captureEnd := by
  have hcond : (st.advanced &&
      !(captureMoves
          (removePiece (movePiece st.advanced st.board (sr, sc) (q.tr, q.tc)) q.mr q.mc)
          q.tr q.tc).isEmpty) = false := by
    cases ha : st.advanced
    · simp
    · have h2 : captureMoves
          (removePiece (movePiece true st.board (sr, sc) (q.tr, q.tc)) q.mr q.mc)
          q.tr q.tc = [] := by
        by_contra h
        apply hnot
        refine ⟨ha, ?_⟩
        rw [ha]
        exact h
      simp [h2]
  unfold applyCapture
  rw [if_neg (by simp [hcond])]
  exact ⟨rfl, rfl, rfl⟩

theorem movePiece_target (adv : Bool) (b : Board) (src dst : Int × Int) (p : Piece)
    (hp : b src.1 src.2 = some p) :
    movePiece adv b src dst dst.1 dst.2 = some (maybeKinging adv dst.1 p) := by
  simp [movePiece, setPiece, hp]

/-- The three cells touched by a capture: origin cleared, middle cleared,
landing receives the (possibly promoted) moving piece; all others untouched. -/
theorem capture_board_effect (adv : Bool) (b : Board) (sr sc : Int) (q : Cap) (p : Piece)
    (hp : b sr sc = some p) (hq : q ∈ captureMoves b sr sc) :
    removePiece (movePiece adv b (sr, sc) (q.tr, q.tc)) q.mr q.mc sr sc = none ∧
    removePiece (movePiece adv b (sr, sc) (q.tr, q.tc)) q.mr q.mc q.mr q.mc = none ∧
    removePiece (movePiece adv b (sr, sc) (q.tr, q.tc)) q.mr q.mc q.tr q.tc =
      some (maybeKinging adv q.tr p) ∧
    ∀ r' c', ¬(r' = sr ∧ c' = sc) → ¬(r' = q.mr ∧ c' = q.mc) → ¬(r' = q.tr ∧ c' = q.tc) →
      removePiece (movePiece adv b (sr, sc) (q.tr, q.tc)) q.mr q.mc r' c' = b r' c' := by
  rcases captureMoves_shape b sr sc q hq with ⟨p', d, hp', hd, e1, e2, e3, e4, _, _, _, _⟩
  have hd1 := dirsOf_d1 p' d hd
  have hmr_ne : sr ≠ q.mr := by rcases hd1.1 with h | h <;> omega
  have htr_ne : sr ≠ q.tr := by rcases hd1.1 with h | h <;> omega
  have htr_mr : q.tr ≠ q.mr := by rcases hd1.1 with h | h <;> omega
  refine ⟨?_, ?_, ?_, ?_⟩
  · simp [removePiece, movePiece, setPiece, hmr_ne, htr_ne]
  · simp [removePiece, setPiece]
  · simp [removePiece, movePiece, setPiece, htr_mr, hp]
  · intro r' c' h1 h2 h3
    simp [removePiece, movePiece, setPiece, h1, h2, h3]

/-! ## Promotion lemmas -/

theorem maybeKinging_color (adv : Bool) (r : Int) (p : Piece) :
    (maybeKinging adv r p).color = p.color := by
  unfold maybeKinging
  split_ifs <;> rfl

theorem maybeKinging_of_king (adv : Bool) (r : Int) (p : Piece) (h : p.king = true) :
    maybeKinging adv r p = p := by
  unfold maybeKinging
  simp [h]

theorem maybeKinging_simple (r : Int) (p : Piece) : maybeKinging false r p = p := by
  unfold maybeKinging
  simp

theorem maybeKinging_promote (adv : Bool) (r : Int) (p : Piece)
    (hadv : adv = true) (hk : p.king = false)
    (h : p.color = Color.red ∧ r = 0 ∨ p.color = Color.black ∧ r = 7) :
    maybeKinging adv r p = ⟨p.color, true⟩ := by
  subst hadv
  unfold maybeKinging
  rcases h with ⟨hc, hr⟩ | ⟨hc, hr⟩ <;> simp [hc, hr, hk]

theorem maybeKinging_king_iff (adv : Bool) (r : Int) (p : Piece) :
    (maybeKinging adv r p).king = true ↔
      p.king = true ∨ (adv = true ∧ p.king = false ∧
        (p.color = Color.red ∧ r = 0 ∨ p.color = Color.black ∧ r = 7)) := by
  unfold maybeKinging
  cases hadv : adv
  · simp
  · cases hk : p.king
    · by_cases h1 : p.color = Color.red ∧ r = 0
      · simp [h1, hk]
      · by_cases h2 : p.color = Color.black ∧ r = 7 <;> simp [h1, h2, hk]
    · simp [hk]

/-! ## Canonical direction order -/

theorem dirsOf_eq_filter (p : Piece) :
    dirsOf p = canonicalDirs.filter (fun d => decide (allowedDir p d)) := by
  obtain ⟨pc, pk⟩ := p
  cases pc <;> cases pk <;> decide

theorem mem_dirsOf (p : Piece) (d : Int × Int) :
    d ∈ dirsOf p ↔ d ∈ canonicalDirs ∧ allowedDir p d := by
  rw [dirsOf_eq_filter]
  simp [List.mem_filter]

theorem capCheck_eq_spec (b : Board) (p : Piece) (r c : Int) (d : Int × Int) :
    capCheck b p r c d = capEntrySpec b p r c d := by
  unfold capCheck capEntrySpec
  split_ifs <;> first | rfl | tauto

/-! ## The dark-cell invariant -/

theorem initialBoard_dark (r c : Int) (p : Piece) (hp : initialBoard r c = some p) :
    within r c ∧ (r + c) % 2 = 1 := by
  unfold initialBoard setupPieces makeEmptyBoard at hp
  split at hp
  · rename_i hcond
    exact ⟨hcond.1, hcond.2⟩
  · cases hp

theorem reach_dark (b : Board) (h : Reach b) :
    ∀ r c p, b r c = some p → within r c ∧ (r + c) % 2 = 1 := by
  induction h with
  | init => exact fun r c p hp => initialBoard_dark r c p hp
  | step b adv r0 c0 nr nc _ hstep ih =>
    intro r c p hp
    rcases (mem_legalSteps b r0 c0 nr nc).mp hstep with ⟨p0, hp0, d, hd, h1, h2, hw, _⟩
    have hdark0 := ih r0 c0 p0 hp0
    have hd1 := dirsOf_d1 p0 d hd
    by_cases hL : r = nr ∧ c = nc
    · rcases hL with ⟨rfl, rfl⟩
      refine ⟨hw, ?_⟩
      rcases hd1.1 with ha | ha <;> rcases hd1.2 with hb' | hb' <;>
        rcases hdark0.2 with hk <;> omega
    · by_cases hO : r = r0 ∧ c = c0
      · rcases hO with ⟨rfl, rfl⟩
        simp [movePiece, setPiece, hL] at hp
      · simp [movePiece, setPiece, hL, hO] at hp
        exact ih r c p hp
  | cap b adv r0 c0 q _ hq ih =>
    intro r c p hp
    rcases captureMoves_shape b r0 c0 q hq with ⟨p0, d, hp0, hd, e1, e2, e3, e4, hw1, hw2, _, _⟩
    have hdark0 := ih r0 c0 p0 hp0
    have hd1 := dirsOf_d1 p0 d hd
    by_cases hM : r = q.mr ∧ c = q.mc
    · rcases hM with ⟨rfl, rfl⟩
      simp [removePiece, setPiece] at hp
    · by_cases hL : r = q.tr ∧ c = q.tc
      · rcases hL with ⟨rfl, rfl⟩
        refine ⟨hw1, ?_⟩
        rcases hd1.1 with ha | ha <;> rcases hd1.2 with hb' | hb' <;>
          rcases hdark0.2 with hk <;> omega
      · by_cases hO : r = r0 ∧ c = c0
        · rcases hO with ⟨rfl, rfl⟩
          simp [removePiece, movePiece, setPiece, hM, hL] at hp
        · simp [removePiece, movePiece, setPiece, hM, hL, hO] at hp
          exact ih r c p hp
  | rem b r0 c0 _ ih =>
    intro r c p hp
    by_cases hO : r = r0 ∧ c = c0
    · rcases hO with ⟨rfl, rfl⟩
      simp [removePiece, setPiece] at hp
    · simp [removePiece, setPiece, hO] at hp
      exact ih r c p hp

/-! ## Concrete scenarios used by witnesses and counterexamples -/

/-- Red pieces at (5,0) and (3,2), Black at (2,3): Red has a capture from
(3,2), while (5,0) has ordinary steps. -/
def cexBoard : Board :=
  boardOf [((5, 0), ⟨Color.red, false⟩), ((3, 2), ⟨Color.red, false⟩),
           ((2, 3), ⟨Color.black, false⟩)]

/-- Advanced mode, Red to move, piece (5,0) selected, capture available. -/
def cexState : GameState :=
  { board := cexBoard, selected := some (5, 0), turn := Color.red,
    advanced := true, chainFrom := none, score := ⟨0, 0⟩ }

/-- Same board, the capturing piece (3,2) selected. -/
def capState : GameState :=
  { board := cexBoard, selected := some (3, 2), turn := Color.red,
    advanced := true, chainFrom := none, score := ⟨0, 0⟩ }

/-- Simple mode, a lone Red piece at (5,0) selected. -/
def stepState : GameState :=
  { board := boardOf [((5, 0), ⟨Color.red, false⟩)], selected := some (5, 0),
    turn := Color.red, advanced := false, chainFrom := none, score := ⟨0, 0⟩ }

/-- A board with a piece on the light cell (0,0), for the C7 counterexample. -/
def lightBoard : Board := boardOf [((0, 0), ⟨Color.black, false⟩)]

/-- Advanced mode: Red non-king at (2,1), Blacks at (1,2) and (1,4); capturing
to (0,3) promotes and a backward capture to (2,5) opens up. -/
def kingChainState : GameState :=
  { board := boardOf [((2, 1), ⟨Color.red, false⟩), ((1, 2), ⟨Color.black, false⟩),
                      ((1, 4), ⟨Color.black, false⟩)],
    selected := some (2, 1), turn := Color.red, advanced := true,
    chainFrom := none, score := ⟨0, 0⟩ }

/-- Simple mode: Red at (3,2), Black at (2,3), Red piece selected. -/
def simpleCapState : GameState :=
  { board := boardOf [((3, 2), ⟨Color.red, false⟩), ((2, 3), ⟨Color.black, false⟩)],
    selected := some (3, 2), turn := Color.red, advanced := false,
    chainFrom := none, score := ⟨0, 0⟩ }

/-- An arbitrary dirty state for the reset witness. -/
def dirtyState : GameState :=
  { board := makeEmptyBoard, selected := some (4, 4), turn := Color.black,
    advanced := true, chainFrom := some (4, 4), score := ⟨3, 4⟩ }

/-! ## The claims -/

/-- C1: in advanced mode, when a chain is in progress or any capture is
available for the turn's color, `computeTargetsForSelection` returns an empty
step list and exactly the cell's own `captureMoves`; in particular, a cell
with no captures gets empty steps and empty captures. -/
theorem claim_C1_forced_targets (st : GameState) (r c : Int)
    (hadv : st.advanced = true)
    (hforce : st.chainFrom.isSome = true ∨ anyCaptureAvailable st.board st.turn = true) :
    computeTargetsForSelection st r c = ⟨[], captureMoves st.board r c⟩ ∧
    (captureMoves st.board r c = [] → computeTargetsForSelection st r c = ⟨[], []⟩) := by
  refine ⟨computeTargets_forced st r c hadv hforce, fun h => ?_⟩
  rw [computeTargets_forced st r c hadv hforce, h]

theorem claim_C1_witness :
    computeTargetsForSelection cexState 5 0 = ⟨[], []⟩ ∧
    computeTargetsForSelection cexState 3 2 = ⟨[], [⟨1, 4, 2, 3⟩]⟩ := by
  have h2 := claim_C1_forced_targets cexState 3 2 rfl (Or.inr (by decide))
  exact ⟨(claim_C1_forced_targets cexState 5 0 rfl (Or.inr (by decide))).2 (by decide),
         h2.1.trans (by decide)⟩

/-- C2 counterexample: in `cexState` a capture is mandatory and (4,1) is a
legal step target of the selected piece (5,0), yet the click is rejected with
the generic illegal-move message, not the specific forced-capture one: the
specific branch is unreachable because the step list is already suppressed. -/
theorem claim_C2_counterexample :
    cexState.advanced = true ∧
    anyCaptureAvailable cexState.board cexState.turn = true ∧
    cexState.selected = some (5, 0) ∧
    ((4 : Int), (1 : Int)) ∈ legalSteps cexState.board 5 0 ∧
    (onSquareClick cexState 4 1).2 = Event.illegalMove ∧
    (onSquareClick cexState 4 1).2 ≠ Event.forcedCapture := by
  decide

/-- C2 (amended): when a capture is mandatory (advanced mode, chain in
progress or capture available for the turn's color), a click attempting a
non-capturing step for the selected piece is rejected with the generic
illegal-move message (the specific forced-capture branch is unreachable
because steps are already suppressed), and the game state is unchanged. -/
theorem claim_C2_forced_step_rejection (st : GameState) (sr sc r c : Int)
    (hadv : st.advanced = true)
    (hforce : st.chainFrom.isSome = true ∨ anyCaptureAvailable st.board st.turn = true)
    (hsel : st.selected = some (sr, sc))
    (hstep : (r, c) ∈ legalSteps st.board sr sc) :
    onSquareClick st r c = (st, Event.illegalMove) := by
  have hempty : st.board r c = none := by
    rcases (mem_legalSteps st.board sr sc r c).mp hstep with ⟨p, _, d, _, _, _, _, he⟩
    exact he
  rw [onSquareClick_move st sr sc r c hempty hsel,
      tryMove_forced_step st sr sc r c hadv hforce hstep]

theorem claim_C2_witness :
    onSquareClick cexState 4 1 = (cexState, Event.illegalMove) :=
  claim_C2_forced_step_rejection cexState 5 0 4 1 rfl (Or.inr (by decide)) rfl (by decide)

/-- C3: a capture entry exists in a direction iff both middle and landing are
in bounds, the middle holds an opposite-color piece, and the landing is
empty; entries are enumerated in the canonical order up-left, up-right,
down-left, down-right restricted to the piece's allowed directions. -/
theorem claim_C3_captureMoves_characterization (b : Board) (r c : Int) (p : Piece)
    (hp : b r c = some p) :
    captureMoves b r c =
      (canonicalDirs.filter (fun d => decide (allowedDir p d))).filterMap
        (capEntrySpec b p r c) ∧
    ∀ q : Cap, q ∈ captureMoves b r c ↔
      ∃ d ∈ canonicalDirs, allowedDir p d ∧
        q = ⟨r + 2 * d.1, c + 2 * d.2, r + d.1, c + d.2⟩ ∧
        within (r + 2 * d.1) (c + 2 * d.2) ∧ within (r + d.1) (c + d.2) ∧
        (∃ m, b (r + d.1) (c + d.2) = some m ∧ m.color ≠ p.color) ∧
        b (r + 2 * d.1) (c + 2 * d.2) = none := by
  constructor
  · have hunf : captureMoves b r c = (dirsOf p).filterMap (capCheck b p r c) := by
      unfold captureMoves
      rw [hp]
    rw [hunf, dirsOf_eq_filter p,
        show capCheck b p r c = capEntrySpec b p r c from funext (capCheck_eq_spec b p r c)]
  · intro q
    rw [mem_captureMoves]
    constructor
    · rintro ⟨p', hp', d, hd, hcc⟩
      rw [hp] at hp'
      injection hp' with hpp
      subst hpp
      rcases (capCheck_eq_some_iff b p r c d q).mp hcc with ⟨w1, w2, hm, hl, rfl⟩
      rcases (mem_dirsOf p d).mp hd with ⟨hdc, hda⟩
      exact ⟨d, hdc, hda, rfl, w1, w2, hm, hl⟩
    · rintro ⟨d, hdc, hda, rfl, w1, w2, hm, hl⟩
      exact ⟨p, hp, d, (mem_dirsOf p d).mpr ⟨hdc, hda⟩,
             (capCheck_eq_some_iff b p r c d _).mpr ⟨w1, w2, hm, hl, rfl⟩⟩

theorem claim_C3_witness :
    captureMoves cexBoard 3 2 =
      (canonicalDirs.filter (fun d => decide (allowedDir ⟨Color.red, false⟩ d))).filterMap
        (capEntrySpec cexBoard ⟨Color.red, false⟩ 3 2) :=
  (claim_C3_captureMoves_characterization cexBoard 3 2 ⟨Color.red, false⟩ (by decide)).1

/-- C4: an accepted capture keeps the turn and sets the chain origin to the
landing cell exactly when further captures exist there and the mode is
advanced, and otherwise passes the turn and clears the chain; an accepted
non-capturing step always passes the turn at once and leaves no chain. -/
theorem claim_C4_turn_and_chain :
    (∀ (st : GameState) (sr sc : Int) (q : Cap),
      st.selected = some (sr, sc) → q ∈ captureMoves st.board sr sc →
      (st.advanced = true →
        captureMoves (onSquareClick st q.tr q.tc).1.board q.tr q.tc ≠ [] →
        (onSquareClick st q.tr q.tc).1.turn = st.turn ∧
        (onSquareClick st q.tr q.tc).1.chainFrom = some (q.tr, q.tc)) ∧
      (¬(st.advanced = true ∧
          captureMoves (onSquareClick st q.tr q.tc).1.board q.tr q.tc ≠ []) →
        (onSquareClick st q.tr q.tc).1.turn = otherColor st.turn ∧
        (onSquareClick st q.tr q.tc).1.chainFrom = none)) ∧
    (∀ (st : GameState) (sr sc r c : Int),
      st.selected = some (sr, sc) → (r, c) ∈ legalSteps st.board sr sc →
      ¬(st.advanced = true ∧
        (st.chainFrom.isSome = true ∨ anyCaptureAvailable st.board st.turn = true)) →
      (onSquareClick st r c).1.turn = otherColor st.turn ∧
      (onSquareClick st r c).1.chainFrom = none ∧
      (onSquareClick st r c).2 = Event.stepMoved) := by
  constructor
  · intro st sr sc q hsel hq
    obtain ⟨p0, d, hp0, hd, e1, e2, e3, e4, hw1, hw2, hmid, hland⟩ :=
      captureMoves_shape st.board sr sc q hq
    have hclick : onSquareClick st q.tr q.tc = applyCapture st sr sc q := by
      rw [onSquareClick_move st sr sc q.tr q.tc hland hsel, tryMove_capture st sr sc q hq]
    rw [hclick, applyCapture_board]
    constructor
    · intro hadv hmore
      exact ⟨(applyCapture_continue st sr sc q hadv hmore).1,
             (applyCapture_continue st sr sc q hadv hmore).2.1⟩
    · intro hnot
      exact ⟨(applyCapture_end st sr sc q hnot).1,
             (applyCapture_end st sr sc q hnot).2.1⟩
  · intro st sr sc r c hsel hstep hnot
    have hempty : st.board r c = none := by
      rcases (mem_legalSteps st.board sr sc r c).mp hstep with ⟨p, _, d, _, _, _, _, he⟩
      exact he
    rw [onSquareClick_move st sr sc r c hempty hsel, tryMove_step st sr sc r c hnot hstep]
    exact ⟨rfl, rfl, rfl⟩

theorem claim_C4_witness :
    ((onSquareClick capState 1 4).1.turn = otherColor capState.turn ∧
     (onSquareClick capState 1 4).1.chainFrom = none) ∧
    ((onSquareClick stepState 4 1).1.turn = otherColor stepState.turn ∧
     (onSquareClick stepState 4 1).1.chainFrom = none ∧
     (onSquareClick stepState 4 1).2 = Event.stepMoved) :=
  ⟨(claim_C4_turn_and_chain.1 capState 3 2 ⟨1, 4, 2, 3⟩ rfl (by decide)).2 (by decide),
   claim_C4_turn_and_chain.2 stepState 5 0 4 1 rfl (by decide) (by decide)⟩

/-- C5: `maybeKinging` promotes exactly in advanced mode when a non-king Red
lands on row 0 or a non-king Black lands on row 7, never changes the color,
is the identity on kings (idempotence) and in simple mode, and `movePiece`
places the already-promoted piece at the target as part of the same update. -/
theorem claim_C5_promotion (adv : Bool) (r : Int) (p : Piece) :
    ((maybeKinging adv r p).king = true ↔
      p.king = true ∨ (adv = true ∧ p.king = false ∧
        (p.color = Color.red ∧ r = 0 ∨ p.color = Color.black ∧ r = 7))) ∧
    (maybeKinging adv r p).color = p.color ∧
    (p.king = true → maybeKinging adv r p = p) ∧
    maybeKinging false r p = p ∧
    ∀ (b : Board) (src dst : Int × Int) (pc : Piece), b src.1 src.2 = some pc →
      movePiece adv b src dst dst.1 dst.2 = some (maybeKinging adv dst.1 pc) :=
  ⟨maybeKinging_king_iff adv r p, maybeKinging_color adv r p,
   maybeKinging_of_king adv r p, maybeKinging_simple r p,
   fun b src dst pc hpc => movePiece_target adv b src dst pc hpc⟩

theorem claim_C5_witness :
    (maybeKinging true 0 ⟨Color.red, false⟩).king = true ∧
    maybeKinging true 3 ⟨Color.red, true⟩ = ⟨Color.red, true⟩ ∧
    movePiece true cexBoard (3, 2) (1, 4) 1 4 =
      some (maybeKinging true 1 ⟨Color.red, false⟩) :=
  ⟨(claim_C5_promotion true 0 ⟨Color.red, false⟩).1.mpr
      (Or.inr ⟨rfl, rfl, Or.inl ⟨rfl, rfl⟩⟩),
   (claim_C5_promotion true 3 ⟨Color.red, true⟩).2.2.1 rfl,
   (claim_C5_promotion true 0 ⟨Color.red, false⟩).2.2.2.2 cexBoard (3, 2) (1, 4)
      ⟨Color.red, false⟩ (by decide)⟩

/-- C6: every board reachable from the initial placement by accepted steps,
accepted captures and removals keeps pieces only on in-bounds dark cells,
with at most one piece per cell (single occupancy is enforced by the cell
type `Option Piece`, as by the single `piece` slot of the source). -/
theorem claim_C6_board_invariant (b : Board) (hb : Reach b) (r c : Int) (p : Piece)
    (hp : b r c = some p) :
    within r c ∧ (r + c) % 2 = 1 ∧ ∀ p', b r c = some p' → p' = p := by
  refine ⟨(reach_dark b hb r c p hp).1, (reach_dark b hb r c p hp).2, ?_⟩
  intro p' hp'
  rw [hp] at hp'
  exact (Option.some_injective _ hp').symm

theorem claim_C6_witness :
    within 0 1 ∧ ((0 : Int) + 1) % 2 = 1 ∧
    ∀ p', initialBoard 0 1 = some p' → p' = ⟨Color.black, false⟩ :=
  claim_C6_board_invariant initialBoard Reach.init 0 1 ⟨Color.black, false⟩ (by decide)

/-- C7 counterexample: on a board with a piece on the light cell (0,0), the
claim as stated fails: `legalSteps` returns the light cell (1,1). -/
theorem claim_C7_counterexample :
    lightBoard 0 0 = some ⟨Color.black, false⟩ ∧
    ((1 : Int), (1 : Int)) ∈ legalSteps lightBoard 0 0 ∧
    ¬(((1 : Int) + 1) % 2 = 1) := by
  decide

/-- C7 (amended): every coordinate returned by `legalSteps` and every landing
and middle coordinate returned by `captureMoves` is in bounds; and whenever
the origin cell is dark, those coordinates all lie on dark cells. -/
theorem claim_C7_bounds_and_dark (b : Board) (r c : Int) :
    (∀ t : Int × Int, t ∈ legalSteps b r c →
      within t.1 t.2 ∧ ((r + c) % 2 = 1 → (t.1 + t.2) % 2 = 1)) ∧
    (∀ q : Cap, q ∈ captureMoves b r c →
      within q.tr q.tc ∧ within q.mr q.mc ∧
      ((r + c) % 2 = 1 → (q.tr + q.tc) % 2 = 1 ∧ (q.mr + q.mc) % 2 = 1)) := by
  constructor
  · rintro ⟨nr, nc⟩ ht
    rcases (mem_legalSteps b r c nr nc).mp ht with ⟨p, _, d, hd, h1, h2, hw, _⟩
    have hd1 := dirsOf_d1 p d hd
    refine ⟨hw, fun hdark => ?_⟩
    rcases hd1.1 with ha | ha <;> rcases hd1.2 with hb' | hb' <;> omega
  · intro q hq
    rcases captureMoves_shape b r c q hq with ⟨p, d, _, hd, e1, e2, e3, e4, hw1, hw2, _, _⟩
    have hd1 := dirsOf_d1 p d hd
    refine ⟨hw1, hw2, fun hdark => ⟨?_, ?_⟩⟩ <;>
      rcases hd1.1 with ha | ha <;> rcases hd1.2 with hb' | hb' <;> omega

theorem claim_C7_witness :
    within (1 : Int) 4 ∧ (((3 : Int) + 2) % 2 = 1 → ((1 : Int) + 4) % 2 = 1) := by
  have h := (claim_C7_bounds_and_dark cexBoard 3 2).2 ⟨1, 4, 2, 3⟩ (by decide)
  exact ⟨h.1, fun hd => (h.2.2 hd).1⟩

/-- C8: after `resetGame` the board carries exactly 12 non-king Black pieces,
one on each dark cell of rows 0–2, and exactly 12 non-king Red pieces, one on
each dark cell of rows 5–7, with every other cell empty; the turn is Red, the
selection and chain origin are cleared, and both scores are zero. -/
theorem claim_C8_reset (st : GameState) :
    (resetGame st).turn = Color.red ∧ (resetGame st).selected = none ∧
    (resetGame st).chainFrom = none ∧ (resetGame st).score = ⟨0, 0⟩ ∧
    countPieces (resetGame st).board Color.red = 12 ∧
    countPieces (resetGame st).board Color.black = 12 ∧
    ∀ r c : Int, within r c →
      ((resetGame st).board r c = some ⟨Color.black, false⟩ ↔ (r + c) % 2 = 1 ∧ r ≤ 2) ∧
      ((resetGame st).board r c = some ⟨Color.red, false⟩ ↔ (r + c) % 2 = 1 ∧ 5 ≤ r) ∧
      ((resetGame st).board r c = none ↔ ¬((r + c) % 2 = 1 ∧ (r ≤ 2 ∨ 5 ≤ r))) := by
  have hcr : countPieces initialBoard Color.red = 12 := by decide
  have hcb : countPieces initialBoard Color.black = 12 := by decide
  refine ⟨rfl, rfl, rfl, rfl, hcr, hcb, ?_⟩
  intro r c hw
  have hbd : (resetGame st).board = initialBoard := rfl
  rw [hbd]
  unfold initialBoard setupPieces makeEmptyBoard
  refine ⟨?_, ?_, ?_⟩ <;> split_ifs with h1 h2 h3 <;>
    simp_all [Piece.mk.injEq] <;> omega

theorem claim_C8_witness :
    (resetGame dirtyState).turn = Color.red ∧
    ((resetGame dirtyState).board 0 1 = some ⟨Color.black, false⟩ ↔
      ((0 : Int) + 1) % 2 = 1 ∧ (0 : Int) ≤ 2) := by
  have h := claim_C8_reset dirtyState
  exact ⟨h.1, (h.2.2.2.2.2.2 0 1 (by decide)).1⟩

/-- C9: in advanced mode, a capture landing a non-king piece on its promotion
row promotes it before chain continuation is evaluated: the landing cell
already holds the king when `captureMoves` is consulted there, and if that
(four-direction) list is non-empty the turn does not pass and the chain
continues from the landing cell in the same turn. -/
theorem claim_C9_promotion_before_chain (st : GameState) (sr sc : Int) (q : Cap) (p : Piece)
    (hadv : st.advanced = true)
    (hsel : st.selected = some (sr, sc))
    (hp : st.board sr sc = some p)
    (hking : p.king = false)
    (hpromo : p.color = Color.red ∧ q.tr = 0 ∨ p.color = Color.black ∧ q.tr = 7)
    (hq : q ∈ captureMoves st.board sr sc) :
    (onSquareClick st q.tr q.tc).1.board q.tr q.tc = some ⟨p.color, true⟩ ∧
    (captureMoves (onSquareClick st q.tr q.tc).1.board q.tr q.tc ≠ [] →
      (onSquareClick st q.tr q.tc).1.turn = st.turn ∧
      (onSquareClick st q.tr q.tc).1.chainFrom = some (q.tr, q.tc) ∧
      (onSquareClick st q.tr q.tc).2 = Event.captureContinue) := by
  obtain ⟨p0, d, hp0, hd, e1, e2, e3, e4, hw1, hw2, hmid, hland⟩ :=
    captureMoves_shape st.board sr sc q hq
  have hclick : onSquareClick st q.tr q.tc = applyCapture st sr sc q := by
    rw [onSquareClick_move st sr sc q.tr q.tc hland hsel, tryMove_capture st sr sc q hq]
  have heff := capture_board_effect st.advanced st.board sr sc q p hp hq
  rw [hclick, applyCapture_board]
  constructor
  · rw [heff.2.2.1, maybeKinging_promote st.advanced q.tr p hadv hking hpromo]
  · intro hmore
    exact ⟨(applyCapture_continue st sr sc q hadv hmore).1,
           (applyCapture_continue st sr sc q hadv hmore).2.1,
           (applyCapture_continue st sr sc q hadv hmore).2.2.2⟩

theorem claim_C9_witness :
    (onSquareClick kingChainState 0 3).1.board 0 3 = some ⟨Color.red, true⟩ ∧
    (onSquareClick kingChainState 0 3).1.turn = Color.red ∧
    (onSquareClick kingChainState 0 3).1.chainFrom = some (0, 3) ∧
    (onSquareClick kingChainState 0 3).2 = Event.captureContinue := by
  have h := claim_C9_promotion_before_chain kingChainState 2 1 ⟨0, 3, 1, 2⟩
    ⟨Color.red, false⟩ rfl rfl (by decide) rfl (Or.inl ⟨rfl, rfl⟩) (by decide)
  have h2 := h.2 (by decide)
  exact ⟨h.1, h2.1, h2.2.1, h2.2.2⟩

/-- C10: an accepted capture, in either mode, changes exactly three board
cells — origin emptied, jumped middle emptied, landing receives the (possibly
promoted) moving piece — leaves every other cell untouched, and bumps exactly
the capturing color's score tally by one. -/
theorem claim_C10_capture_frame (st : GameState) (sr sc : Int) (q : Cap) (p : Piece)
    (hsel : st.selected = some (sr, sc))
    (hp : st.board sr sc = some p)
    (hturn : p.color = st.turn)
    (hq : q ∈ captureMoves st.board sr sc) :
    st.board q.tr q.tc = none ∧
    (∃ m, st.board q.mr q.mc = some m ∧ m.color ≠ p.color) ∧
    (onSquareClick st q.tr q.tc).1.board sr sc = none ∧
    (onSquareClick st q.tr q.tc).1.board q.mr q.mc = none ∧
    (onSquareClick st q.tr q.tc).1.board q.tr q.tc = some (maybeKinging st.advanced q.tr p) ∧
    (∀ r' c', ¬(r' = sr ∧ c' = sc) → ¬(r' = q.mr ∧ c' = q.mc) → ¬(r' = q.tr ∧ c' = q.tc) →
      (onSquareClick st q.tr q.tc).1.board r' c' = st.board r' c') ∧
    (st.turn = Color.red → (onSquareClick st q.tr q.tc).1.score.red = st.score.red + 1 ∧
      (onSquareClick st q.tr q.tc).1.score.black = st.score.black) ∧
    (st.turn = Color.black → (onSquareClick st q.tr q.tc).1.score.black = st.score.black + 1 ∧
      (onSquareClick st q.tr q.tc).1.score.red = st.score.red) := by
  obtain ⟨p0, d, hp0, hd, e1, e2, e3, e4, hw1, hw2, hmid, hland⟩ :=
    captureMoves_shape st.board sr sc q hq
  have hpp : p0 = p := by
    rw [hp] at hp0
    exact Option.some_injective _ hp0.symm
  subst hpp
  have hclick : onSquareClick st q.tr q.tc = applyCapture st sr sc q := by
    rw [onSquareClick_move st sr sc q.tr q.tc hland hsel, tryMove_capture st sr sc q hq]
  have heff := capture_board_effect st.advanced st.board sr sc q p0 hp hq
  rw [hclick, applyCapture_board, applyCapture_score]
  refine ⟨hland, hmid, heff.1, heff.2.1, heff.2.2.1, heff.2.2.2, ?_, ?_⟩
  · intro hred
    rw [if_pos hred]
    exact ⟨rfl, rfl⟩
  · intro hblack
    rw [if_neg (by rw [hblack]; exact fun hcontra => Color.noConfusion hcontra)]
    exact ⟨rfl, rfl⟩

theorem claim_C10_witness :
    (onSquareClick simpleCapState 1 4).1.board 3 2 = none ∧
    (onSquareClick simpleCapState 1 4).1.board 2 3 = none ∧
    (onSquareClick simpleCapState 1 4).1.board 1 4 =
      some (maybeKinging false 1 ⟨Color.red, false⟩) ∧
    (onSquareClick simpleCapState 1 4).1.board 5 6 = simpleCapState.board 5 6 ∧
    (onSquareClick simpleCapState 1 4).1.score.red = 1 := by
  have h := claim_C10_capture_frame simpleCapState 3 2 ⟨1, 4, 2, 3⟩ ⟨Color.red, false⟩
    rfl (by decide) rfl (by decide)
  exact ⟨h.2.2.1, h.2.2.2.1, h.2.2.2.2.1,
         h.2.2.2.2.2.1 5 6 (by decide) (by decide) (by decide),
         (h.2.2.2.2.2.2.1 rfl).1⟩

end Checkers
